import Mathlib

/-!
Verification of the layout engine in `src/layout/mod.rs` (moxie-native).

The Rust code is shallowly embedded: `f32` becomes `ℚ`, byte offsets become
indices into a `List Char` (one char = one byte), `Rc`-shared trees become
plain values (object identity is modelled explicitly only where a claim is
about identity, see `ChildSlot`), and the text shaping service (skribo /
font-kit), an external collaborator, is modelled as a `FontEnv` assigning
each character a horizontal advance and a line height, both already scaled
to the requested text size.  Loops of the source that are not structurally
recursive carry explicit fuel and return `Option`: `none` means the loop was
still running when the fuel ran out.
-/

namespace Moxie

/-- `euclid::Size2D<f32, LogicalPixel>`. -/
structure LogicalSize where
  width : ℚ
  height : ℚ
deriving DecidableEq, Repr

/-- `euclid::Point2D<f32, LogicalPixel>`. -/
structure LogicalPoint where
  x : ℚ
  y : ℚ
deriving DecidableEq, Repr

/-- `euclid::SideOffsets2D<f32, LogicalPixel>`. -/
structure LogicalSideOffsets where
  top : ℚ
  right : ℚ
  bottom : ℚ
  left : ℚ
deriving DecidableEq, Repr

/-- `SideOffsets2D::horizontal`: `left + right`. -/
def LogicalSideOffsets.horizontal (s : LogicalSideOffsets) : ℚ := s.left + s.right

/-- `SideOffsets2D::vertical`: `top + bottom`. -/
def LogicalSideOffsets.vertical (s : LogicalSideOffsets) : ℚ := s.top + s.bottom

/-- `LayoutType` from `src/layout/mod.rs`: which algorithm arranges children. -/
inductive LayoutType where
  | List : LayoutType
  | Inline : LayoutType
  | Text : List Char → LayoutType
deriving DecidableEq, Repr

/-- `LayoutOptions`: per-element input to the layout engine. -/
structure LayoutOptions where
  padding : LogicalSideOffsets
  width : Option ℚ
  height : Option ℚ
  textSize : ℚ
  layoutTy : LayoutType
deriving DecidableEq, Repr

/-- `impl Default for LayoutOptions`. -/
def defaultLayoutOptions : LayoutOptions :=
  { padding := ⟨0, 0, 0, 0⟩
    width := none
    height := none
    textSize := 16
    layoutTy := LayoutType.List }

/-- `LayoutText`: text fragment handed to the renderer. -/
structure LayoutText where
  text : List Char
  size : ℚ
deriving DecidableEq, Repr

/-- `LayoutChild`, generic in the node type so `LayoutTreeNode` can nest it. -/
structure LayoutChildG (α : Type) where
  index : Nat
  position : LogicalPoint
  layout : α
deriving Repr

/-- `LayoutTreeNode`: one node of the immutable output tree. -/
inductive LayoutTreeNode where
  | mk : LogicalSize → Option LayoutText → List (LayoutChildG LayoutTreeNode) → LayoutTreeNode

abbrev LayoutChild := LayoutChildG LayoutTreeNode

/-- Field `size` of `LayoutTreeNode`. -/
def LayoutTreeNode.size : LayoutTreeNode → LogicalSize
  | .mk s _ _ => s

/-- Field `render_text` of `LayoutTreeNode`. -/
def LayoutTreeNode.renderText : LayoutTreeNode → Option LayoutText
  | .mk _ t _ => t

/-- Field `children` of `LayoutTreeNode`. -/
def LayoutTreeNode.children : LayoutTreeNode → List LayoutChild
  | .mk _ _ c => c

/-- `TextLayoutInfo`: a text child whose line breaking is still pending. -/
structure TextLayoutInfo where
  text : List Char
  size : ℚ
  maxWidth : ℚ

/-- `UnresolvedLayout`: either a resolved sub-tree or pending text. -/
inductive UnresolvedLayout where
  | Resolved : LayoutTreeNode → UnresolvedLayout
  | Text : TextLayoutInfo → UnresolvedLayout

/-- The text shaping service (external collaborator, spec section 4.6 and 6):
for the text run in question it gives each character a horizontal advance
and a line height (ascent minus descent), both unit-normalised and scaled to
the requested text size. -/
structure FontEnv where
  adv : Char → ℚ
  lineH : Char → ℚ

/-- Modelled from the spec: the word-boundary segmentation performed by the
missing `word_break_iter` module ("scan words in source order by a
word-boundary segmentation").  The text is split at every boundary between
whitespace and non-whitespace, so the iterator yields the maximal runs of
whitespace and of non-whitespace in source order; each run is paired with
the index just past its last character.  This accumulator version is
structurally recursive so that it evaluates by `decide`. -/
def splitWordsGo : List Char → Nat → List Char → List (Nat × List Char)
  | [], i, acc => if acc.isEmpty then [] else [(i, acc.reverse)]
  | c :: cs, i, acc =>
    match acc with
    | [] => splitWordsGo cs (i + 1) [c]
    | a :: rest =>
      if c.isWhitespace == a.isWhitespace then
        splitWordsGo cs (i + 1) (c :: a :: rest)
      else
        (i, (a :: rest).reverse) :: splitWordsGo cs (i + 1) [c]

/-- The segmentation of a string: runs paired with their end offsets. -/
def splitWords (s : List Char) : List (Nat × List Char) :=
  splitWordsGo s 0 []

/-- Width of one segment: the sum of its glyph advances. -/
def wordWidth (env : FontEnv) (w : List Char) : ℚ :=
  (w.map env.adv).sum

/-- Line height over one segment: the running `height.max(line_height)` of
the glyph loop contributes, per segment, the max of the line heights of the
runs the segment touches (`0` for an empty segment, matching the `0.0f32`
start value). -/
def wordHeight (env : FontEnv) (w : List Char) : ℚ :=
  (w.map env.lineH).foldr max 0

/-- The glyph loop of `fill_line` restricted to one segment: starting from
cursor `x`, scan the segment's glyphs accumulating advances; `true` iff no
glyph makes the cursor pass `width`, i.e. the early return guarded by
`last_word_x + new_x > width` never fires. -/
def wordFits (env : FontEnv) (width : ℚ) : ℚ → List Char → Bool
  | _, [] => true
  | x, c :: cs =>
    if x + env.adv c > width then false else wordFits env width (x + env.adv c) cs

/-- The word loop of `fill_line`: fold over the segments, keeping
`(last_word_end, last_word_x, last_word_height)`; stop at the first segment
whose glyph scan passes `width` and return the state saved at the last
completed segment. -/
def fillWords (env : FontEnv) (width : ℚ) :
    List (Nat × List Char) → Nat → ℚ → ℚ → Nat × ℚ × ℚ
  | [], lastEnd, lastX, lastH => (lastEnd, lastX, lastH)
  | (e, w) :: rest, lastEnd, lastX, lastH =>
    if wordFits env width lastX w then
      fillWords env width rest e (lastX + wordWidth env w) (max lastH (wordHeight env w))
    else
      (lastEnd, lastX, lastH)

/-- `TextLayoutInfo::fill_line`: from byte offset `offset`, consume whole
word-boundary segments while they fit in `width`; return (consumed length
from the offset, occupied width, line height of the consumed span). -/
def TextLayoutInfo.fillLine (env : FontEnv) (t : TextLayoutInfo) (width : ℚ)
    (offset : Nat) : Nat × ℚ × ℚ :=
  fillWords env width (splitWords (t.text.drop offset)) 0 0 0

/-- `TextLayoutInfo::advance_past_whitespace`: `trim_start` on the suffix and
measure how far the start pointer moved. -/
def TextLayoutInfo.advancePastWhitespace (t : TextLayoutInfo) (offset : Nat) : Nat :=
  offset + ((t.text.drop offset).takeWhile Char.isWhitespace).length

/-- The `while offset < len` loop of `UnresolvedLayout::resolve`, with fuel.
State: current byte offset, accumulated `height`, `longest_line_width`.
Returns `(longest_line_width, height)`; `none` when the fuel runs out with
the loop still running. -/
def resolveLoop (env : FontEnv) (t : TextLayoutInfo) :
    Nat → Nat → ℚ → ℚ → Option (ℚ × ℚ)
  | fuel, offset, height, longest =>
    if offset < t.text.length then
      match fuel with
      | 0 => none
      | fuel + 1 =>
        let r := t.fillLine env t.maxWidth offset
        resolveLoop env t fuel (offset + r.1) (height + r.2.2) (max longest r.2.1)
    else
      some (longest, height)

/-- `UnresolvedLayout::resolve`: a resolved layout is returned as is; pending
text is broken into stacked lines at the node's own max width. -/
def UnresolvedLayout.resolve (env : FontEnv) (fuel : Nat) :
    UnresolvedLayout → Option LayoutTreeNode
  | .Resolved layout => some layout
  | .Text t =>
    (resolveLoop env t fuel 0 0 0).map fun p =>
      LayoutTreeNode.mk ⟨p.1, p.2⟩ none []

/-- `LayoutInputs`: the input of one memoized combination step. -/
structure LayoutInputs where
  opts : LayoutOptions
  maxSize : LogicalSize
  children : List UnresolvedLayout

/-- The running state of the `LayoutType::Inline` arm of `calc_layout`:
cursor `x`, committed `height`, current `line_height`, `longest_line`, and
the `child_positions` pushed so far. -/
structure InlineState where
  x : ℚ
  height : ℚ
  lineHeight : ℚ
  longestLine : ℚ
  childs : List LayoutChild

/-- The state the Inline arm starts from: all cursors zero, no children. -/
def initInlineState : InlineState :=
  { x := 0, height := 0, lineHeight := 0, longestLine := 0, childs := [] }

/-- The `UnresolvedLayout::Resolved` arm of the Inline loop: commit the line
when the box would pass `max_size.width`, push the box at the cursor, then
advance the cursor and the line height. -/
def inlineBox (maxWidth : ℚ) (padding : LogicalSideOffsets) (index : Nat)
    (child : LayoutTreeNode) (st : InlineState) : InlineState :=
  let st :=
    if st.x + child.size.width > maxWidth then
      { st with
          height := st.height + st.lineHeight
          longestLine := max st.longestLine st.x
          x := 0
          lineHeight := 0 }
    else st
  let st :=
    { st with
        childs := st.childs ++
          [(⟨index, ⟨padding.left + st.x, padding.top + st.height⟩, child⟩ : LayoutChild)] }
  { st with
      x := st.x + child.size.width
      lineHeight := max st.lineHeight child.size.height }

/-- The constant `99999999.0` the code uses as an effectively unbounded
width when a single word overflows an empty line. -/
def overflowWidth : ℚ := 99999999

/-- One iteration of the `while offset < text.text.len()` loop of the
`UnresolvedLayout::Text` arm of the Inline flow: fill at the remaining line
width; on a zero-length fill commit the line, skip leading whitespace and
retry at the full width; on a second zero-length fill force a fill at
`overflowWidth`; then push the consumed substring as a text fragment and
advance the cursor.  Returns the new state and the new byte offset. -/
def textStep (env : FontEnv) (maxWidth : ℚ) (padding : LogicalSideOffsets)
    (index : Nat) (t : TextLayoutInfo) (st : InlineState) (offset : Nat) :
    InlineState × Nat :=
  let remaining := maxWidth - st.x
  let r := t.fillLine env remaining offset
  if r.1 = 0 then
    let st' :=
      { st with
          height := st.height + st.lineHeight
          longestLine := max st.longestLine st.x
          x := 0
          lineHeight := 0 }
    let start := t.advancePastWhitespace offset
    let r2 := t.fillLine env maxWidth start
    if r2.1 = 0 then
      let r3 := t.fillLine env overflowWidth start
      let stop := start + r3.1
      let frag := LayoutTreeNode.mk ⟨r3.2.1, r3.2.2⟩
        (some ⟨(t.text.drop start).take (stop - start), t.size⟩) []
      ({ st' with
          childs := st'.childs ++
            [(⟨index, ⟨padding.left + st'.x, padding.top + st'.height⟩, frag⟩ : LayoutChild)]
          x := st'.x + r3.2.1
          lineHeight := max st'.lineHeight r3.2.2 }, stop)
    else
      let stop := start + r2.1
      let frag := LayoutTreeNode.mk ⟨r2.2.1, r2.2.2⟩
        (some ⟨(t.text.drop start).take (stop - start), t.size⟩) []
      ({ st' with
          childs := st'.childs ++
            [(⟨index, ⟨padding.left + st'.x, padding.top + st'.height⟩, frag⟩ : LayoutChild)]
          x := st'.x + r2.2.1
          lineHeight := max st'.lineHeight r2.2.2 }, stop)
  else
    let stop := offset + r.1
    let frag := LayoutTreeNode.mk ⟨r.2.1, r.2.2⟩
      (some ⟨(t.text.drop offset).take (stop - offset), t.size⟩) []
    ({ st with
        childs := st.childs ++
          [(⟨index, ⟨padding.left + st.x, padding.top + st.height⟩, frag⟩ : LayoutChild)]
        x := st.x + r.2.1
        lineHeight := max st.lineHeight r.2.2 }, stop)

/-- The whole per-text-child loop of the Inline flow, with fuel. -/
def textLoop (env : FontEnv) (maxWidth : ℚ) (padding : LogicalSideOffsets)
    (index : Nat) (t : TextLayoutInfo) :
    Nat → InlineState → Nat → Option InlineState
  | fuel, st, offset =>
    if offset < t.text.length then
      match fuel with
      | 0 => none
      | fuel + 1 =>
        let p := textStep env maxWidth padding index t st offset
        textLoop env maxWidth padding index t fuel p.1 p.2
    else
      some st

/-- The `for (index, child) in children.iter().enumerate()` loop of the
Inline arm. -/
def inlineChildren (env : FontEnv) (fuel : Nat) (maxWidth : ℚ)
    (padding : LogicalSideOffsets) :
    List UnresolvedLayout → Nat → InlineState → Option InlineState
  | [], _, st => some st
  | .Resolved child :: rest, index, st =>
    inlineChildren env fuel maxWidth padding rest (index + 1)
      (inlineBox maxWidth padding index child st)
  | .Text t :: rest, index, st => do
    let st' ← textLoop env maxWidth padding index t fuel st 0
    inlineChildren env fuel maxWidth padding rest (index + 1) st'

/-- The `LayoutType::List` loop of `calc_layout`: resolve every child, stack
top to bottom, fold the max width and the total height.  State:
`(child_positions, width, height)`. -/
def listChildren (env : FontEnv) (fuel : Nat) (padding : LogicalSideOffsets) :
    List UnresolvedLayout → Nat → List LayoutChild × ℚ × ℚ →
    Option (List LayoutChild × ℚ × ℚ)
  | [], _, acc => some acc
  | child :: rest, index, (childs, width, height) => do
    let n ← child.resolve env fuel
    listChildren env fuel padding rest (index + 1)
      (childs ++ [(⟨index, ⟨padding.left, height + padding.top⟩, n⟩ : LayoutChild)],
        max width n.size.width, height + n.size.height)

/-- The flow dispatch of `calc_layout`: the pushed `child_positions` and the
combined content size `min_size`, before padding and explicit overrides.
`LayoutType::Text` returns early in the code and has no content here. -/
def flowResult (env : FontEnv) (fuel : Nat) (input : LayoutInputs) :
    Option (List LayoutChild × LogicalSize) :=
  match input.opts.layoutTy with
  | .Text _ => none
  | .Inline =>
    (inlineChildren env fuel input.maxSize.width input.opts.padding
        input.children 0 initInlineState).map fun st =>
      (st.childs, ⟨max st.longestLine st.x, st.height + st.lineHeight⟩)
  | .List =>
    (listChildren env fuel input.opts.padding input.children 0 ([], 0, 0)).map
      fun acc => (acc.1, ⟨acc.2.1, acc.2.2⟩)

/-- The epilogue of `calc_layout`: `outer = min_size + padding`, each axis
then overridden by an explicit width or height. -/
def outerSize (opts : LayoutOptions) (minSize : LogicalSize) : LogicalSize :=
  { width :=
      match opts.width with
      | some w => w
      | none => minSize.width + opts.padding.horizontal
    height :=
      match opts.height with
      | some h => h
      | none => minSize.height + opts.padding.vertical }

/-- `LayoutEngine::calc_layout`: pending text is passed up unresolved; the
other flows combine their children and wrap them in a resolved node. -/
def calcLayout (env : FontEnv) (fuel : Nat) (input : LayoutInputs) :
    Option UnresolvedLayout :=
  match input.opts.layoutTy with
  | .Text s =>
    some (.Text ⟨s, input.opts.textSize, input.maxSize.width⟩)
  | _ =>
    (flowResult env fuel input).map fun r =>
      .Resolved (LayoutTreeNode.mk (outerSize input.opts r.2) none r.1)

/-- `LayoutEngine::calc_max_size`: the parent's max size, overridden per
axis by an explicit width or height, minus this node's padding. -/
def calcMaxSize (opts : LayoutOptions) (parentSize : LogicalSize) : LogicalSize :=
  { width :=
      (match opts.width with | some w => w | none => parentSize.width) -
        opts.padding.horizontal
    height :=
      (match opts.height with | some h => h | none => parentSize.height) -
        opts.padding.vertical }

/-- The element tree as the layout engine sees it (spec sections 4.1 and 6):
each node exposes an ordered child list and a pure resolution of its layout
options from the parent's. -/
inductive DomNode where
  | mk : (LayoutOptions → LayoutOptions) → List DomNode → DomNode

/-- `create_layout_opts` of a DOM node. -/
def DomNode.createLayoutOpts : DomNode → LayoutOptions → LayoutOptions
  | .mk f _, parentOpts => f parentOpts

/-- Ordered children of a DOM node. -/
def DomNode.childNodes : DomNode → List DomNode
  | .mk _ cs => cs

mutual

/-- `LayoutEngine::layout_child`: resolve this node's options from the
parent's, compute its max content size, lay out every child against them,
and combine through `calc_layout` (the memoized step; memoization itself
lives in the host runtime and does not change the value computed). -/
def layoutChild (env : FontEnv) (fuel : Nat) :
    DomNode → LogicalSize → LayoutOptions → Option UnresolvedLayout
  | .mk f cs, parentMaxSize, parentOpts =>
    let opts := f parentOpts
    let maxSize := calcMaxSize opts parentMaxSize
    match layoutChildList env fuel cs maxSize opts with
    | none => none
    | some children => calcLayout env fuel ⟨opts, maxSize, children⟩

/-- The `for child in get_children(node)` loop of `layout_child`. -/
def layoutChildList (env : FontEnv) (fuel : Nat) :
    List DomNode → LogicalSize → LayoutOptions → Option (List UnresolvedLayout)
  | [], _, _ => some []
  | c :: cs, maxSize, opts =>
    match layoutChild env fuel c maxSize opts with
    | none => none
    | some r =>
      match layoutChildList env fuel cs maxSize opts with
      | none => none
      | some rs => some (r :: rs)

end

/-- The `for (index, child) in node.children().iter().enumerate()` loop of
`run_layout`: each direct child of the root is laid out against the
viewport size, force-resolved and placed at `(0, 0)`. -/
def runChildren (env : FontEnv) (fuel : Nat) (size : LogicalSize)
    (opts : LayoutOptions) : List DomNode → Nat → Option (List LayoutChild)
  | [], _ => some []
  | c :: cs, index => do
    let u ← layoutChild env fuel c size opts
    let n ← u.resolve env fuel
    let rest ← runChildren env fuel size opts cs (index + 1)
    some ((⟨index, ⟨0, 0⟩, n⟩ : LayoutChild) :: rest)

/-- `LayoutEngine::run_layout`: resolve the root's options against the
defaults, lay out and resolve every direct child at the viewport size, and
wrap them at position `(0, 0)` in a node sized to the viewport with no
render text. -/
def runLayout (env : FontEnv) (fuel : Nat) (node : DomNode)
    (size : LogicalSize) : Option LayoutTreeNode := do
  let opts := node.createLayoutOpts defaultLayoutOptions
  let childs ← runChildren env fuel size opts node.childNodes 0
  some (LayoutTreeNode.mk size none childs)

/-- A slot of the `children: Vec<UnresolvedLayout>` of a `LayoutInputs`,
with the two distinct identities that matter to `LayoutInputs::eq`:
`slotAddr` is the address of the slot inside this vector's own buffer (what
`ptr::eq(a, b)` compares, `a` and `b` being the `&UnresolvedLayout`
references yielded by `self.children.iter()` and `other.children.iter()`),
while `resultId` is the identity of the child result object itself, the
`Rc` allocation that may be structurally shared across passes. -/
structure ChildSlot where
  slotAddr : Nat
  resultId : Nat
deriving DecidableEq, Repr

/-- `LayoutInputs` with the identities of its children made explicit, for
stating what `LayoutInputs::eq` compares. -/
structure LayoutInputsM where
  opts : LayoutOptions
  maxSize : LogicalSize
  children : List ChildSlot
deriving DecidableEq, Repr

/-- `impl PartialEq for LayoutInputs`: options and max size by value, then
lengths, then `ptr::eq` on each pair of element references, i.e. on the
addresses of the vector slots. -/
def layoutInputsEq (a b : LayoutInputsM) : Bool :=
  if a.opts ≠ b.opts then false
  else if a.maxSize ≠ b.maxSize then false
  else if a.children.length ≠ b.children.length then false
  else (a.children.zip b.children).all fun p => p.1.slotAddr == p.2.slotAddr

/-- Modelled from the spec: the combination input key equality of spec
section 3 — options and max size by value, child-result lists of equal
length with each corresponding child result the identical object (the same
shared result reused from a prior pass). -/
def specKeyEq (a b : LayoutInputsM) : Bool :=
  if a.opts ≠ b.opts then false
  else if a.maxSize ≠ b.maxSize then false
  else if a.children.length ≠ b.children.length then false
  else (a.children.zip b.children).all fun p => p.1.resultId == p.2.resultId

/-! ## The segmentation, restated for reasoning

`splitW` computes the same segmentation as `splitWordsGo` but one maximal
run at a time, which gives it usable equation lemmas; the two are proved
equal below. -/

theorem length_dropWhile_le (p : Char → Bool) (l : List Char) :
    (l.dropWhile p).length ≤ l.length := by
  induction l with
  | nil => simp
  | cons c cs ih =>
    by_cases h : p c
    · simp only [List.dropWhile_cons, h]
      simp
      omega
    · simp only [List.dropWhile_cons, h]
      simp

/-- One-run-at-a-time form of the word-boundary segmentation. -/
def splitW : List Char → Nat → List (Nat × List Char)
  | [], _ => []
  | c :: cs, i =>
    (i + 1 + (cs.takeWhile fun d => d.isWhitespace == c.isWhitespace).length,
      c :: cs.takeWhile fun d => d.isWhitespace == c.isWhitespace) ::
    splitW (cs.dropWhile fun d => d.isWhitespace == c.isWhitespace)
      (i + 1 + (cs.takeWhile fun d => d.isWhitespace == c.isWhitespace).length)
termination_by s _ => s.length
decreasing_by
  exact Nat.lt_succ_of_le (length_dropWhile_le _ cs)

/-- `splitWordsGo` with a nonempty accumulator whose characters share one
whitespace classification: it first closes the current run with the
matching leading characters of `s`, then proceeds as `splitW`. -/
theorem splitWordsGo_acc (s : List Char) : ∀ (i : Nat) (a : Char) (acc : List Char),
    (∀ x ∈ acc, x.isWhitespace = a.isWhitespace) →
    splitWordsGo s i (a :: acc) =
      (i + (s.takeWhile fun d : Char => d.isWhitespace == a.isWhitespace).length,
        (a :: acc).reverse ++ s.takeWhile (fun d : Char => d.isWhitespace == a.isWhitespace)) ::
      splitW (s.dropWhile fun d : Char => d.isWhitespace == a.isWhitespace)
        (i + (s.takeWhile fun d : Char => d.isWhitespace == a.isWhitespace).length) := by
  induction s with
  | nil =>
    intro i a acc _
    simp [splitWordsGo, splitW]
  | cons c cs ih =>
    intro i a acc hacc
    by_cases h : c.isWhitespace = a.isWhitespace
    · have hb : (c.isWhitespace == a.isWhitespace) = true := by simp [h]
      have hrec := ih (i + 1) c (a :: acc) (by
        intro x hx
        rcases List.mem_cons.mp hx with hx | hx
        · rw [hx, h]
        · rw [hacc x hx, h])
      have hpred : (fun d : Char => d.isWhitespace == c.isWhitespace) =
          (fun d : Char => d.isWhitespace == a.isWhitespace) := by
        funext d
        rw [h]
      rw [splitWordsGo, hb]
      simp only [if_pos rfl]
      rw [hrec, hpred]
      simp only [List.takeWhile_cons, hb, if_true, List.dropWhile_cons]
      simp only [List.cons.injEq, Prod.mk.injEq, List.length_cons]
      refine ⟨⟨by omega, by simp [List.reverse_cons, List.append_assoc]⟩, ?_⟩
      congr 1
      omega
    · have hb : (c.isWhitespace == a.isWhitespace) = false := by simp [h]
      rw [splitWordsGo, hb]
      simp only [Bool.false_eq_true, if_false]
      have hrec := ih (i + 1) c [] (by intro x hx; cases hx)
      rw [hrec]
      simp only [List.takeWhile_cons, List.dropWhile_cons, hb, Bool.false_eq_true,
        if_false, List.length_nil, Nat.add_zero, List.append_nil,
        List.reverse_cons, List.reverse_nil, List.nil_append, List.singleton_append]
      simp only [splitW]

/-- The executable segmentation agrees with the one-run-at-a-time form. -/
theorem splitWords_eq_splitW (s : List Char) : splitWords s = splitW s 0 := by
  cases s with
  | nil => simp [splitWords, splitWordsGo, splitW]
  | cons c cs =>
    show splitWordsGo (c :: cs) 0 [] = _
    rw [splitWordsGo]
    simp only [Nat.zero_add]
    rw [splitWordsGo_acc cs 1 c [] (by intro x hx; cases hx)]
    simp only [splitW]
    simp only [List.reverse_cons, List.reverse_nil, List.nil_append,
      List.singleton_append, List.cons.injEq, Prod.mk.injEq, List.length_cons,
      Nat.zero_add]

theorem takeWhile_dropWhile_length (p : Char → Bool) (l : List Char) :
    (l.takeWhile p).length + (l.dropWhile p).length = l.length := by
  have h := congrArg List.length (List.takeWhile_append_dropWhile p l)
  rw [List.length_append] at h
  exact h

/-- Every segment of `splitW s i` ends after `i`, ends within `i + s.length`,
and is a nonempty run. -/
theorem splitW_mem_bounds : ∀ (s : List Char) (i : Nat), ∀ p ∈ splitW s i,
    i < p.1 ∧ p.1 ≤ i + s.length ∧ p.2 ≠ [] := by
  have key : ∀ (n : Nat) (s : List Char), s.length ≤ n → ∀ (i : Nat), ∀ p ∈ splitW s i,
      i < p.1 ∧ p.1 ≤ i + s.length ∧ p.2 ≠ [] := by
    intro n
    induction n with
    | zero =>
      intro s hs i p hp
      match s with
      | [] => simp [splitW] at hp
    | succ n ih =>
      intro s hs i p hp
      match s with
      | [] => simp [splitW] at hp
      | c :: cs =>
        rw [splitW] at hp
        rcases List.mem_cons.mp hp with hp | hp
        · subst hp
          have hk := takeWhile_dropWhile_length
            (fun d : Char => d.isWhitespace == c.isWhitespace) cs
          refine ⟨by omega, by simp; omega, by simp⟩
        · have hd := length_dropWhile_le (fun d => d.isWhitespace == c.isWhitespace) cs
          have hlen : (cs.dropWhile fun d => d.isWhitespace == c.isWhitespace).length ≤ n := by
            simp at hs
            omega
          have h2 := ih _ hlen _ p hp
          have h3 := takeWhile_dropWhile_length
            (fun d => d.isWhitespace == c.isWhitespace) cs
          simp only [List.length_cons]
          refine ⟨by omega, by omega, h2.2.2⟩
  intro s i
  exact key s.length s le_rfl i

/-- The segment end offsets of `splitW` are strictly increasing. -/
theorem splitW_sorted : ∀ (s : List Char) (i : Nat),
    List.Pairwise (fun p q : Nat × List Char => p.1 < q.1) (splitW s i) := by
  have key : ∀ (n : Nat) (s : List Char), s.length ≤ n → ∀ (i : Nat),
      List.Pairwise (fun p q : Nat × List Char => p.1 < q.1) (splitW s i) := by
    intro n
    induction n with
    | zero =>
      intro s hs i
      match s with
      | [] => simp [splitW]
    | succ n ih =>
      intro s hs i
      match s with
      | [] => simp [splitW]
      | c :: cs =>
        rw [splitW]
        refine List.Pairwise.cons ?_ ?_
        · intro q hq
          exact (splitW_mem_bounds _ _ q hq).1
        · have hlen : (cs.dropWhile fun d => d.isWhitespace == c.isWhitespace).length ≤ n := by
            have := length_dropWhile_le (fun d => d.isWhitespace == c.isWhitespace) cs
            simp at hs
            omega
          exact ih _ hlen _
  intro s i
  exact key s.length s le_rfl i

theorem wordWidth_nil (env : FontEnv) : wordWidth env [] = 0 := rfl

theorem wordWidth_cons (env : FontEnv) (c : Char) (cs : List Char) :
    wordWidth env (c :: cs) = env.adv c + wordWidth env cs := by
  simp [wordWidth]

theorem wordWidth_nonneg (env : FontEnv) (hadv : ∀ c, 0 ≤ env.adv c)
    (w : List Char) : 0 ≤ wordWidth env w := by
  refine List.sum_nonneg ?_
  intro x hx
  rcases List.mem_map.mp hx with ⟨c, _, rfl⟩
  exact hadv c

/-- A segment whose whole width fits from `x` passes the glyph scan, because
with nonnegative advances every intermediate cursor stays below the final
one. -/
theorem wordFits_of_sum (env : FontEnv) (width : ℚ) (hadv : ∀ c, 0 ≤ env.adv c) :
    ∀ (w : List Char) (x : ℚ), x + wordWidth env w ≤ width →
    wordFits env width x w = true := by
  intro w
  induction w with
  | nil => intro x _; rfl
  | cons c cs ihw =>
    intro x hx
    rw [wordWidth_cons] at hx
    have hcs : 0 ≤ wordWidth env cs := wordWidth_nonneg env hadv cs
    have hc : ¬ x + env.adv c > width := by
      push_neg
      linarith
    rw [wordFits, if_neg hc]
    exact ihw (x + env.adv c) (by linarith)

/-- A segment that passes the glyph scan occupies at most the remaining
budget (unless it is empty and moves the cursor nowhere). -/
theorem wordFits_le (env : FontEnv) (width : ℚ) :
    ∀ (w : List Char) (x : ℚ), wordFits env width x w = true →
    x + wordWidth env w ≤ width ∨ w = [] := by
  intro w
  induction w with
  | nil => intro x _; exact Or.inr rfl
  | cons c cs ihw =>
    intro x hfit
    rw [wordFits] at hfit
    by_cases hc : x + env.adv c > width
    · rw [if_pos hc] at hfit
      cases hfit
    · rw [if_neg hc] at hfit
      rcases ihw (x + env.adv c) hfit with h | h
      · left
        rw [wordWidth_cons]
        linarith
      · left
        subst h
        rw [wordWidth_cons, wordWidth_nil]
        push_neg at hc
        linarith

/-- The consumed length returned by the fold is either the starting
`last_word_end` or the end offset of one of the segments. -/
theorem fillWords_fst_mem (env : FontEnv) (width : ℚ) :
    ∀ (segs : List (Nat × List Char)) (lastEnd : Nat) (lastX lastH : ℚ),
    (fillWords env width segs lastEnd lastX lastH).1 = lastEnd ∨
      ∃ w, ((fillWords env width segs lastEnd lastX lastH).1, w) ∈ segs := by
  intro segs
  induction segs with
  | nil => intro lastEnd lastX lastH; exact Or.inl rfl
  | cons q rest ihs =>
    intro lastEnd lastX lastH
    obtain ⟨e, w⟩ := q
    rw [fillWords]
    by_cases hfit : wordFits env width lastX w = true
    · rw [if_pos hfit]
      rcases ihs e (lastX + wordWidth env w) (max lastH (wordHeight env w)) with h | ⟨w2, h⟩
      · exact Or.inr ⟨w, by rw [h]; exact List.mem_cons_self _ _⟩
      · exact Or.inr ⟨w2, List.mem_cons_of_mem _ h⟩
    · rw [if_neg hfit]
      exact Or.inl rfl

theorem fillWords_fst_le (env : FontEnv) (width : ℚ)
    (segs : List (Nat × List Char)) (lastEnd : Nat) (lastX lastH : ℚ) (L : Nat)
    (h1 : lastEnd ≤ L) (h2 : ∀ p ∈ segs, p.1 ≤ L) :
    (fillWords env width segs lastEnd lastX lastH).1 ≤ L := by
  rcases fillWords_fst_mem env width segs lastEnd lastX lastH with h | ⟨w, h⟩
  · omega
  · exact h2 _ h

theorem fillWords_fst_lb (env : FontEnv) (width : ℚ)
    (segs : List (Nat × List Char)) (lastEnd : Nat) (lastX lastH : ℚ)
    (h2 : ∀ p ∈ segs, lastEnd ≤ p.1) :
    lastEnd ≤ (fillWords env width segs lastEnd lastX lastH).1 := by
  rcases fillWords_fst_mem env width segs lastEnd lastX lastH with h | ⟨w, h⟩
  · omega
  · exact h2 _ h

/-- If the first segment passes the glyph scan, the fold consumes at least
up to its end offset. -/
theorem fillWords_first_fit (env : FontEnv) (width : ℚ) (e : Nat) (w : List Char)
    (rest : List (Nat × List Char)) (lastEnd : Nat) (lastX lastH : ℚ)
    (hfit : wordFits env width lastX w = true)
    (hrest : ∀ p ∈ rest, e ≤ p.1) :
    e ≤ (fillWords env width ((e, w) :: rest) lastEnd lastX lastH).1 := by
  rw [fillWords, if_pos hfit]
  exact fillWords_fst_lb env width rest e _ _ hrest

/-- The occupied width returned by the fold never passes the budget when the
starting cursor has not passed it. -/
theorem fillWords_x_le (env : FontEnv) (width : ℚ) :
    ∀ (segs : List (Nat × List Char)) (lastEnd : Nat) (lastX lastH : ℚ),
    lastX ≤ width → (fillWords env width segs lastEnd lastX lastH).2.1 ≤ width := by
  intro segs
  induction segs with
  | nil => intro lastEnd lastX lastH h; exact h
  | cons q rest ihs =>
    intro lastEnd lastX lastH h
    obtain ⟨e, w⟩ := q
    rw [fillWords]
    by_cases hfit : wordFits env width lastX w = true
    · rw [if_pos hfit]
      refine ihs e (lastX + wordWidth env w) _ ?_
      rcases wordFits_le env width w lastX hfit with h2 | h2
      · exact h2
      · subst h2
        rw [wordWidth_nil]
        linarith
    · rw [if_neg hfit]
      exact h

/-- Shape of the fold: it consumes a prefix `P` of the segments whole; the
returned length is the last end offset of `P` (or the starting one),
the returned width is the starting cursor plus the widths of `P`, the
returned height folds the heights of `P`, and the first unconsumed segment,
if any, failed its glyph scan at the accumulated cursor. -/
theorem fillWords_shape (env : FontEnv) (width : ℚ) :
    ∀ (segs : List (Nat × List Char)) (lastEnd : Nat) (lastX lastH : ℚ),
    ∃ P Q, segs = P ++ Q ∧
      fillWords env width segs lastEnd lastX lastH =
        ((P.map Prod.fst).getLastD lastEnd,
          lastX + (P.map fun q => wordWidth env q.2).sum,
          P.foldl (fun h q => max h (wordHeight env q.2)) lastH) ∧
      (∀ e w Q2, Q = (e, w) :: Q2 →
        wordFits env width (lastX + (P.map fun q => wordWidth env q.2).sum) w = false) := by
  intro segs
  induction segs with
  | nil =>
    intro lastEnd lastX lastH
    refine ⟨[], [], rfl, by simp [fillWords], by intro e w Q2 h; cases h⟩
  | cons q rest ihs =>
    intro lastEnd lastX lastH
    obtain ⟨e, w⟩ := q
    by_cases hfit : wordFits env width lastX w = true
    · obtain ⟨P, Q, hsplit, hval, hfail⟩ :=
        ihs e (lastX + wordWidth env w) (max lastH (wordHeight env w))
      refine ⟨(e, w) :: P, Q, by rw [List.cons_append, hsplit], ?_, ?_⟩
      · rw [fillWords, if_pos hfit, hval]
        simp only [List.map_cons, List.sum_cons, List.foldl_cons]
        refine congrArg₂ _ ?_ (congrArg₂ _ (by ring) rfl)
        cases P with
        | nil => simp [List.getLastD]
        | cons p2 P2 => simp [List.getLastD]
      · intro e2 w2 Q2 hq
        have := hfail e2 w2 Q2 hq
        simp only [List.map_cons, List.sum_cons] at this ⊢
        have harith : lastX + (wordWidth env w +
            (List.map (fun q => wordWidth env q.2) P).sum) =
            lastX + wordWidth env w + (List.map (fun q => wordWidth env q.2) P).sum := by
          ring
        rw [harith]
        exact this
    · refine ⟨[], (e, w) :: rest, rfl, by simp [fillWords, hfit], ?_⟩
      intro e2 w2 Q2 hq
      injection hq with h1 h2
      injection h1 with h3 h4
      subst h4
      simp only [List.map_nil, List.sum_nil, add_zero]
      exact Bool.not_eq_true _ |>.mp hfit

theorem segs_sum_nonneg (env : FontEnv) (hadv : ∀ c, 0 ≤ env.adv c)
    (P : List (Nat × List Char)) :
    0 ≤ (P.map fun q => wordWidth env q.2).sum := by
  refine List.sum_nonneg ?_
  intro x hx
  rcases List.mem_map.mp hx with ⟨q, _, rfl⟩
  exact wordWidth_nonneg env hadv q.2

/-- Furthest-cut property: any segment end whose cumulative width from the
starting cursor fits in the budget is reached by the fold (advances
nonnegative, end offsets strictly increasing). -/
theorem fillWords_take_le (env : FontEnv) (width : ℚ) (hadv : ∀ c, 0 ≤ env.adv c) :
    ∀ (segs : List (Nat × List Char)) (lastEnd : Nat) (lastX lastH : ℚ) (k : Nat)
      (hk : k < segs.length),
      List.Pairwise (fun p q : Nat × List Char => p.1 < q.1) segs →
      lastX + ((segs.take (k + 1)).map fun q => wordWidth env q.2).sum ≤ width →
      (segs.get ⟨k, hk⟩).1 ≤ (fillWords env width segs lastEnd lastX lastH).1 := by
  intro segs
  induction segs with
  | nil =>
    intro lastEnd lastX lastH k hk
    cases hk
  | cons q rest ihs =>
    intro lastEnd lastX lastH k hk hpair hsum
    obtain ⟨e, w⟩ := q
    match k with
    | 0 =>
      simp only [List.take, List.map_cons, List.sum_cons] at hsum
      have hw : lastX + wordWidth env w ≤ width := by
        have h0 : 0 ≤ ((rest.take 0).map fun q => wordWidth env q.2).sum := by
          simp
        simp at hsum
        linarith
      have hfit := wordFits_of_sum env width hadv w lastX hw
      refine fillWords_first_fit env width e w rest lastEnd lastX lastH hfit ?_
      intro p hp
      exact le_of_lt ((List.pairwise_cons.mp hpair).1 p hp)
    | k + 1 =>
      simp only [List.take, List.map_cons, List.sum_cons] at hsum
      have hrest : 0 ≤ ((rest.take (k + 1)).map fun q => wordWidth env q.2).sum :=
        segs_sum_nonneg env hadv _
      have hw : lastX + wordWidth env w ≤ width := by linarith
      have hfit := wordFits_of_sum env width hadv w lastX hw
      rw [fillWords, if_pos hfit]
      have hk2 : k < rest.length := Nat.lt_of_succ_lt_succ hk
      have := ihs e (lastX + wordWidth env w) (max lastH (wordHeight env w)) k hk2
        (List.pairwise_cons.mp hpair).2 (by linarith)
      simpa using this

theorem takeWhile_length_le (p : Char → Bool) (l : List Char) :
    (l.takeWhile p).length ≤ l.length := by
  have := takeWhile_dropWhile_length p l
  omega

/-- `fill_line` never consumes more than the rest of the string. -/
theorem fillLine_le (env : FontEnv) (t : TextLayoutInfo) (width : ℚ) (offset : Nat) :
    (t.fillLine env width offset).1 ≤ (t.text.drop offset).length := by
  rw [TextLayoutInfo.fillLine, splitWords_eq_splitW]
  refine fillWords_fst_le env width _ 0 0 0 _ (Nat.zero_le _) ?_
  intro p hp
  have := splitW_mem_bounds _ 0 p hp
  omega

/-- `fill_line` consumes at least the first segment when that segment
passes the glyph scan from a fresh cursor. -/
theorem fillLine_first_fit (env : FontEnv) (t : TextLayoutInfo) (width : ℚ)
    (offset : Nat) (e : Nat) (w : List Char) (rest : List (Nat × List Char))
    (hsplit : splitW (t.text.drop offset) 0 = (e, w) :: rest)
    (hfit : wordFits env width 0 w = true) :
    e ≤ (t.fillLine env width offset).1 := by
  rw [TextLayoutInfo.fillLine, splitWords_eq_splitW, hsplit]
  refine fillWords_first_fit env width e w rest 0 0 0 hfit ?_
  intro p hp
  have hpair := splitW_sorted (t.text.drop offset) 0
  rw [hsplit] at hpair
  exact le_of_lt ((List.pairwise_cons.mp hpair).1 p hp)

/-- A nonempty suffix always has a first segment, whose end offset is
positive. -/
theorem splitW_head_of_ne_nil (s : List Char) (hs : s ≠ []) :
    ∃ e w rest, splitW s 0 = (e, w) :: rest ∧ 1 ≤ e := by
  cases s with
  | nil => exact absurd rfl hs
  | cons c cs =>
    rw [splitW]
    exact ⟨_, _, _, rfl, by omega⟩

theorem advancePastWhitespace_ge (t : TextLayoutInfo) (offset : Nat) :
    offset ≤ t.advancePastWhitespace offset :=
  Nat.le_add_right _ _

theorem advancePastWhitespace_le (t : TextLayoutInfo) (offset : Nat) :
    t.advancePastWhitespace offset ≤ offset + (t.text.drop offset).length := by
  rw [TextLayoutInfo.advancePastWhitespace]
  have := takeWhile_length_le Char.isWhitespace (t.text.drop offset)
  omega

/-- The byte offset produced by one iteration of the Inline pending-text
loop, extracted from the branch structure of `textStep`. -/
theorem textStep_offset (env : FontEnv) (maxWidth : ℚ) (padding : LogicalSideOffsets)
    (index : Nat) (t : TextLayoutInfo) (st : InlineState) (offset : Nat) :
    (textStep env maxWidth padding index t st offset).2 =
      if (t.fillLine env (maxWidth - st.x) offset).1 = 0 then
        if (t.fillLine env maxWidth (t.advancePastWhitespace offset)).1 = 0 then
          t.advancePastWhitespace offset +
            (t.fillLine env overflowWidth (t.advancePastWhitespace offset)).1
        else
          t.advancePastWhitespace offset +
            (t.fillLine env maxWidth (t.advancePastWhitespace offset)).1
      else
        offset + (t.fillLine env (maxWidth - st.x) offset).1 := by
  rw [textStep]
  dsimp only
  split_ifs with h1 h2 <;> rfl

/-- Provided every glyph advance is nonnegative and no word-boundary
segment is wider than the forced-overflow budget, one iteration of the
Inline pending-text loop strictly advances the byte offset and keeps it
within the text. -/
theorem textStep_progress (env : FontEnv) (maxWidth : ℚ)
    (padding : LogicalSideOffsets) (index : Nat) (t : TextLayoutInfo)
    (st : InlineState) (offset : Nat)
    (hadv : ∀ c, 0 ≤ env.adv c)
    (hseg : ∀ off, off < t.text.length → ∀ p ∈ splitW (t.text.drop off) 0,
      wordWidth env p.2 ≤ overflowWidth)
    (hoff : offset < t.text.length) :
    offset < (textStep env maxWidth padding index t st offset).2 ∧
      (textStep env maxWidth padding index t st offset).2 ≤ t.text.length := by
  rw [textStep_offset]
  have hdroplen : (t.text.drop offset).length = t.text.length - offset :=
    List.length_drop _ _
  by_cases h1 : (t.fillLine env (maxWidth - st.x) offset).1 = 0
  · rw [if_pos h1]
    have hge := advancePastWhitespace_ge t offset
    have hle := advancePastWhitespace_le t offset
    have hstartlen : t.advancePastWhitespace offset ≤ t.text.length := by omega
    have hdrop2 : (t.text.drop (t.advancePastWhitespace offset)).length =
        t.text.length - t.advancePastWhitespace offset := List.length_drop _ _
    have hr2le := fillLine_le env t maxWidth (t.advancePastWhitespace offset)
    have hr3le := fillLine_le env t overflowWidth (t.advancePastWhitespace offset)
    by_cases hsk : offset < t.advancePastWhitespace offset
    · split_ifs with h2 <;> omega
    · have heq : t.advancePastWhitespace offset = offset := by omega
      rw [heq] at hr2le hr3le ⊢
      by_cases h2 : (t.fillLine env maxWidth offset).1 = 0
      · rw [if_pos h2]
        have hne : t.text.drop offset ≠ [] := by
          intro hcon
          rw [hcon] at hdroplen
          simp at hdroplen
          omega
        obtain ⟨e, w, rest, hsplit, he⟩ := splitW_head_of_ne_nil _ hne
        have hwmem : (e, w) ∈ splitW (t.text.drop offset) 0 := by
          rw [hsplit]
          exact List.mem_cons_self _ _
        have hwle := hseg offset hoff _ hwmem
        have hfit : wordFits env overflowWidth 0 w = true :=
          wordFits_of_sum env overflowWidth hadv w 0 (by linarith)
        have hprog := fillLine_first_fit env t overflowWidth offset e w rest hsplit hfit
        omega
      · rw [if_neg h2]
        omega
  · rw [if_neg h1]
    have hrle := fillLine_le env t (maxWidth - st.x) offset
    omega

/-- Under the same conditions the whole pending-text loop terminates: fuel
equal to the remaining byte length always suffices. -/
theorem textLoop_term (env : FontEnv) (maxWidth : ℚ)
    (padding : LogicalSideOffsets) (index : Nat) (t : TextLayoutInfo)
    (hadv : ∀ c, 0 ≤ env.adv c)
    (hseg : ∀ off, off < t.text.length → ∀ p ∈ splitW (t.text.drop off) 0,
      wordWidth env p.2 ≤ overflowWidth) :
    ∀ (fuel : Nat) (st : InlineState) (offset : Nat),
      t.text.length - offset ≤ fuel →
      (textLoop env maxWidth padding index t fuel st offset).isSome = true := by
  intro fuel
  induction fuel with
  | zero =>
    intro st offset h
    rw [textLoop]
    have hlt : ¬ offset < t.text.length := by omega
    simp [hlt]
  | succ n ih =>
    intro st offset h
    rw [textLoop]
    by_cases hlt : offset < t.text.length
    · simp only [if_pos hlt]
      have hp := textStep_progress env maxWidth padding index t st offset hadv hseg hlt
      exact ih _ _ (by omega)
    · simp [hlt]

/-! ## First-child origin invariant (spec padding invariant) -/

/-- Invariant carried by the Inline fold: while nothing has been pushed the
cursors are still at their start values, and once something has been
pushed, the first pushed child sits at the padding-adjusted origin. -/
def originInv (padding : LogicalSideOffsets) (st : InlineState) : Prop :=
  (st.childs = [] → st.x = 0 ∧ st.height = 0 ∧ st.lineHeight = 0) ∧
  (∀ c, st.childs.head? = some c → c.position = ⟨padding.left, padding.top⟩)

theorem head?_append_left {α : Type} (l l2 : List α) (h : l ≠ []) :
    (l ++ l2).head? = l.head? := by
  cases l with
  | nil => exact absurd rfl h
  | cons a as => rfl

theorem originInv_push (padding : LogicalSideOffsets) (st : InlineState)
    (c : LayoutChild) (hinv : originInv padding st)
    (hpos : st.childs = [] → c.position = ⟨padding.left, padding.top⟩) :
    ∀ x2 h2 lh2 ll2, originInv padding
      ⟨x2, h2, lh2, ll2, st.childs ++ [c]⟩ := by
  intro x2 h2 lh2 ll2
  constructor
  · intro hempty
    exact absurd hempty (by simp)
  · intro c2 hc2
    by_cases hch : st.childs = []
    · rw [hch] at hc2
      simp at hc2
      rw [← hc2]
      exact hpos hch
    · rw [head?_append_left _ _ hch] at hc2
      exact hinv.2 c2 hc2

theorem inlineBox_originInv (maxWidth : ℚ) (padding : LogicalSideOffsets)
    (index : Nat) (child : LayoutTreeNode) (st : InlineState)
    (hinv : originInv padding st) :
    originInv padding (inlineBox maxWidth padding index child st) := by
  rw [inlineBox]
  dsimp only
  split_ifs with hc
  · refine originInv_push padding st _ hinv ?_ _ _ _ _
    intro hch
    obtain ⟨hx, hh, hlh⟩ := hinv.1 hch
    dsimp only
    simp [hx, hh, hlh]
  · refine originInv_push padding st _ hinv ?_ _ _ _ _
    intro hch
    obtain ⟨hx, hh, _⟩ := hinv.1 hch
    dsimp only
    simp [hx, hh]

theorem textStep_originInv (env : FontEnv) (maxWidth : ℚ)
    (padding : LogicalSideOffsets) (index : Nat) (t : TextLayoutInfo)
    (st : InlineState) (offset : Nat) (hinv : originInv padding st) :
    originInv padding (textStep env maxWidth padding index t st offset).1 := by
  rw [textStep]
  dsimp only
  split_ifs with h1 h2
  · refine originInv_push padding st _ hinv ?_ _ _ _ _
    intro hch
    obtain ⟨hx, hh, hlh⟩ := hinv.1 hch
    dsimp only
    simp [hx, hh, hlh]
  · refine originInv_push padding st _ hinv ?_ _ _ _ _
    intro hch
    obtain ⟨hx, hh, hlh⟩ := hinv.1 hch
    dsimp only
    simp [hx, hh, hlh]
  · refine originInv_push padding st _ hinv ?_ _ _ _ _
    intro hch
    obtain ⟨hx, hh, _⟩ := hinv.1 hch
    dsimp only
    simp [hx, hh]

theorem textLoop_originInv (env : FontEnv) (maxWidth : ℚ)
    (padding : LogicalSideOffsets) (index : Nat) (t : TextLayoutInfo) :
    ∀ (fuel : Nat) (st : InlineState) (offset : Nat) (stNew : InlineState),
    textLoop env maxWidth padding index t fuel st offset = some stNew →
    originInv padding st → originInv padding stNew := by
  intro fuel
  induction fuel with
  | zero =>
    intro st offset stNew hrun hinv
    rw [textLoop] at hrun
    by_cases hlt : offset < t.text.length
    · rw [if_pos hlt] at hrun
      cases hrun
    · rw [if_neg hlt] at hrun
      injection hrun with h
      rw [← h]
      exact hinv
  | succ n ih =>
    intro st offset stNew hrun hinv
    rw [textLoop] at hrun
    by_cases hlt : offset < t.text.length
    · rw [if_pos hlt] at hrun
      exact ih _ _ _ hrun
        (textStep_originInv env maxWidth padding index t st offset hinv)
    · rw [if_neg hlt] at hrun
      injection hrun with h
      rw [← h]
      exact hinv

theorem inlineChildren_originInv (env : FontEnv) (fuel : Nat) (maxWidth : ℚ)
    (padding : LogicalSideOffsets) :
    ∀ (children : List UnresolvedLayout) (index : Nat) (st stNew : InlineState),
    inlineChildren env fuel maxWidth padding children index st = some stNew →
    originInv padding st → originInv padding stNew := by
  intro children
  induction children with
  | nil =>
    intro index st stNew hrun hinv
    rw [inlineChildren] at hrun
    injection hrun with h
    rw [← h]
    exact hinv
  | cons child rest ih =>
    intro index st stNew hrun hinv
    cases child with
    | Resolved n =>
      rw [inlineChildren] at hrun
      exact ih _ _ _ hrun (inlineBox_originInv maxWidth padding index n st hinv)
    | Text t =>
      rw [inlineChildren] at hrun
      cases hloop : textLoop env maxWidth padding index t fuel st 0 with
      | none => rw [hloop] at hrun; cases hrun
      | some stMid =>
        rw [hloop] at hrun
        exact ih _ _ _ hrun
          (textLoop_originInv env maxWidth padding index t fuel st 0 stMid hloop hinv)

theorem initInlineState_originInv (padding : LogicalSideOffsets) :
    originInv padding initInlineState := by
  constructor
  · intro _
    exact ⟨rfl, rfl, rfl⟩
  · intro c hc
    cases hc

/-- Invariant carried by the List fold: while nothing has been pushed the
height accumulator is zero, and the first pushed child sits at the
padding-adjusted origin. -/
def listOriginInv (padding : LogicalSideOffsets)
    (acc : List LayoutChild × ℚ × ℚ) : Prop :=
  (acc.1 = [] → acc.2.2 = 0) ∧
  (∀ c, acc.1.head? = some c → c.position = ⟨padding.left, padding.top⟩)

theorem listChildren_originInv (env : FontEnv) (fuel : Nat)
    (padding : LogicalSideOffsets) :
    ∀ (children : List UnresolvedLayout) (index : Nat)
      (acc accNew : List LayoutChild × ℚ × ℚ),
    listChildren env fuel padding children index acc = some accNew →
    listOriginInv padding acc → listOriginInv padding accNew := by
  intro children
  induction children with
  | nil =>
    intro index acc accNew hrun hinv
    rw [listChildren] at hrun
    injection hrun with h
    rw [← h]
    exact hinv
  | cons child rest ih =>
    intro index acc accNew hrun hinv
    obtain ⟨childs, w, h⟩ := acc
    rw [listChildren] at hrun
    cases hres : child.resolve env fuel with
    | none => rw [hres] at hrun; cases hrun
    | some n =>
      rw [hres] at hrun
      refine ih _ _ _ hrun ⟨?_, ?_⟩
      · intro hempty
        exact absurd hempty (by simp)
      · intro c2 hc2
        by_cases hch : childs = []
        · rw [hch] at hc2
          simp at hc2
          rw [← hc2]
          have hz := hinv.1 hch
          simp only at hz
          dsimp only
          rw [hz]
          simp
        · rw [head?_append_left _ _ hch] at hc2
          exact hinv.2 c2 hc2

/-! ## Unfolding the flow dispatch -/

/-- A resolved result of `calc_layout` always comes from the flow dispatch,
wrapped with padding and explicit overrides and no render text. -/
theorem calcLayout_resolved (env : FontEnv) (fuel : Nat) (input : LayoutInputs)
    (node : LayoutTreeNode)
    (h : calcLayout env fuel input = some (.Resolved node)) :
    ∃ childs minSize, flowResult env fuel input = some (childs, minSize) ∧
      node = LayoutTreeNode.mk (outerSize input.opts minSize) none childs := by
  rcases hty : input.opts.layoutTy with _ | _ | s
  · rw [calcLayout, hty] at h
    cases hres : flowResult env fuel input with
    | none => rw [hres] at h; cases h
    | some r =>
      rw [hres] at h
      simp only [Option.map_some] at h
      injection h with h2
      injection h2 with h3
      exact ⟨r.1, r.2, rfl, h3.symm⟩
  · rw [calcLayout, hty] at h
    cases hres : flowResult env fuel input with
    | none => rw [hres] at h; cases h
    | some r =>
      rw [hres] at h
      simp only [Option.map_some] at h
      injection h with h2
      injection h2 with h3
      exact ⟨r.1, r.2, rfl, h3.symm⟩
  · rw [calcLayout, hty] at h
    injection h with h2
    cases h2

theorem flowResult_inline (env : FontEnv) (fuel : Nat) (input : LayoutInputs)
    (hty : input.opts.layoutTy = .Inline) :
    flowResult env fuel input =
      (inlineChildren env fuel input.maxSize.width input.opts.padding
          input.children 0 initInlineState).map fun st =>
        (st.childs, ⟨max st.longestLine st.x, st.height + st.lineHeight⟩) := by
  rw [flowResult, hty]

theorem flowResult_list (env : FontEnv) (fuel : Nat) (input : LayoutInputs)
    (hty : input.opts.layoutTy = .List) :
    flowResult env fuel input =
      (listChildren env fuel input.opts.padding input.children 0 ([], 0, 0)).map
        fun acc => (acc.1, ⟨acc.2.1, acc.2.2⟩) := by
  rw [flowResult, hty]

/-! ## List flow, characterised on resolved children -/

/-- The children pushed by the List flow starting from height accumulator
`h` and child index `i`. -/
def buildList (padding : LogicalSideOffsets) :
    List LayoutTreeNode → Nat → ℚ → List LayoutChild
  | [], _, _ => []
  | n :: rest, i, h =>
    ⟨i, ⟨padding.left, h + padding.top⟩, n⟩ ::
      buildList padding rest (i + 1) (h + n.size.height)

theorem buildList_length (padding : LogicalSideOffsets) :
    ∀ (nodes : List LayoutTreeNode) (i : Nat) (h : ℚ),
    (buildList padding nodes i h).length = nodes.length := by
  intro nodes
  induction nodes with
  | nil => intro i h; rfl
  | cons n rest ih =>
    intro i h
    rw [buildList]
    simp only [List.length_cons, ih]

theorem listChildren_resolved (env : FontEnv) (fuel : Nat)
    (padding : LogicalSideOffsets) :
    ∀ (nodes : List LayoutTreeNode) (index : Nat) (childs : List LayoutChild)
      (w h : ℚ),
    listChildren env fuel padding (nodes.map .Resolved) index (childs, w, h) =
      some (childs ++ buildList padding nodes index h,
        (nodes.map fun n => n.size.width).foldl max w,
        h + (nodes.map fun n => n.size.height).sum) := by
  intro nodes
  induction nodes with
  | nil =>
    intro index childs w h
    simp [listChildren, buildList]
  | cons n rest ih =>
    intro index childs w h
    rw [List.map_cons, listChildren]
    show listChildren env fuel padding (rest.map .Resolved) (index + 1)
        (childs ++ [⟨index, ⟨padding.left, h + padding.top⟩, n⟩],
          max w n.size.width, h + n.size.height) = _
    rw [ih]
    rw [buildList]
    simp only [List.map_cons, List.foldl_cons, List.sum_cons, List.append_assoc,
      List.singleton_append]
    refine congrArg _ ?_
    refine congrArg₂ _ rfl (congrArg₂ _ rfl ?_)
    ring

theorem buildList_get (padding : LogicalSideOffsets) :
    ∀ (nodes : List LayoutTreeNode) (i0 : Nat) (h0 : ℚ) (k : Nat)
      (hk : k < nodes.length),
    (buildList padding nodes i0 h0).get
        ⟨k, by rw [buildList_length]; exact hk⟩ =
      ⟨i0 + k,
        ⟨padding.left,
          (h0 + ((nodes.take k).map fun n => n.size.height).sum) + padding.top⟩,
        nodes.get ⟨k, hk⟩⟩ := by
  intro nodes
  induction nodes with
  | nil =>
    intro i0 h0 k hk
    cases hk
  | cons n rest ih =>
    intro i0 h0 k hk
    match k with
    | 0 =>
      show (⟨i0, ⟨padding.left, h0 + padding.top⟩, n⟩ : LayoutChild) = _
      simp
    | k + 1 =>
      have hk2 : k < rest.length := Nat.lt_of_succ_lt_succ hk
      have := ih (i0 + 1) (h0 + n.size.height) k hk2
      show (buildList padding rest (i0 + 1) (h0 + n.size.height)).get
          ⟨k, by rw [buildList_length]; exact hk2⟩ = _
      rw [this]
      have hs : ((n :: rest).take (k + 1)).map (fun n => n.size.height) =
          n.size.height :: (rest.take k).map (fun n => n.size.height) := rfl
      rw [hs, List.sum_cons]
      have hy : h0 + n.size.height + ((rest.take k).map fun n => n.size.height).sum =
          h0 + (n.size.height + ((rest.take k).map fun n => n.size.height).sum) := by ring
      rw [hy]
      have hidx : i0 + 1 + k = i0 + (k + 1) := by omega
      rw [hidx]
      rfl



/-! ## Concrete fixtures for counterexamples and witnesses -/

/-- A font in which every glyph advances 1 unit with line height 1. -/
def envOne : FontEnv := ⟨fun _ => 1, fun _ => 1⟩

/-- A font in which every glyph advances 10 units with line height 12. -/
def envTen : FontEnv := ⟨fun _ => 10, fun _ => 12⟩

/-- A font in which every glyph advances a billion units: wider than the
forced-overflow constant `99999999`. -/
def envHuge : FontEnv := ⟨fun _ => 1000000000, fun _ => 12⟩

/-- The two-byte text "ab" with max width 5. -/
def tAB : TextLayoutInfo := ⟨['a', 'b'], 16, 5⟩

/-- The one-byte text "a" with max width 5. -/
def tA : TextLayoutInfo := ⟨['a'], 16, 5⟩

/-- Zero padding on all four sides. -/
def padZero : LogicalSideOffsets := ⟨0, 0, 0, 0⟩

/-- Default options with Inline flow (zero padding, no explicit size). -/
def inlineOptsZ : LayoutOptions :=
  { defaultLayoutOptions with layoutTy := LayoutType.Inline }

/-- A content-less box of the given size. -/
def boxN (w h : ℚ) : LayoutTreeNode := LayoutTreeNode.mk ⟨w, h⟩ none []

/-! ## Claim C2 -/

/-- The `while offset < len` loop of `resolve` never advances on the text
"ab" in the 10-unit font with max width 5: the single segment is wider than
the budget, `fill_line` returns length 0 and the state repeats forever. -/
theorem resolveLoop_stuck : ∀ (fuel : Nat) (h l : ℚ),
    resolveLoop envTen tAB fuel 0 h l = none := by
  intro fuel
  have hfill : tAB.fillLine envTen tAB.maxWidth 0 = (0, 0, 0) := by
    norm_num [TextLayoutInfo.fillLine, fillWords, wordFits, wordWidth, wordHeight,
      splitWords, splitWordsGo, tAB, envTen]
  induction fuel with
  | zero =>
    intro h l
    rw [resolveLoop]
    norm_num [tAB]
  | succ n ih =>
    intro h l
    rw [resolveLoop]
    have hlt : 0 < tAB.text.length := by norm_num [tAB]
    rw [if_pos hlt, hfill]
    exact ih _ _

/-- Claim C2: forced text resolution does NOT terminate for every text and
max width.  On the text "ab" whose single unbreakable segment (20 units in
the 10-unit font) is wider than the max width 5, `fill_line` returns length
0, the loop body adds 0 to the offset, and `resolve` runs forever: with any
amount of fuel the loop is still running.  The claim (and spec section 4.5
with scenario 4) says the over-wide word should overflow on its own line
and the loop should terminate. -/
theorem c2_forced_resolution_diverges :
    tAB.fillLine envTen tAB.maxWidth 0 = (0, 0, 0) ∧
      ∀ fuel : Nat, UnresolvedLayout.resolve envTen fuel (.Text tAB) = none := by
  constructor
  · norm_num [TextLayoutInfo.fillLine, fillWords, wordFits, wordWidth, wordHeight,
      splitWords, splitWordsGo, tAB, envTen]
  · intro fuel
    rw [UnresolvedLayout.resolve, resolveLoop_stuck fuel 0 0]
    rfl

/-! ## Claim C1 -/

/-- Claim C1 (code vs spec section 3): two memoization keys holding the very
same shared child result (`resultId` 7) in vectors of their own compare
unequal under `LayoutInputs::eq`, because `ptr::eq` is applied to the
`&UnresolvedLayout` references into each vector — the addresses of the
vector slots (1 and 2 here) — not to the identities of the child results;
the key equality the spec describes compares equal. -/
theorem c1_eq_compares_slot_addresses :
    layoutInputsEq
        ⟨defaultLayoutOptions, ⟨100, 100⟩, [⟨1, 7⟩]⟩
        ⟨defaultLayoutOptions, ⟨100, 100⟩, [⟨2, 7⟩]⟩ = false ∧
      specKeyEq
        ⟨defaultLayoutOptions, ⟨100, 100⟩, [⟨1, 7⟩]⟩
        ⟨defaultLayoutOptions, ⟨100, 100⟩, [⟨2, 7⟩]⟩ = true := by
  constructor
  · rfl
  · rfl

/-! ## Claim C3 -/

/-- Claim C3 as stated is false: with the positive width budget 5 and the
text "ab" in the 10-unit font, the fill starting at offset 0 (which is
below the text length 2) returns consumed length 0, so the offset produced
by the call equals the starting offset instead of strictly increasing. -/
theorem c3_counterexample :
    (0 : ℚ) < 5 ∧ (0 : Nat) < tAB.text.length ∧
      0 + (tAB.fillLine envTen 5 0).1 = 0 := by
  refine ⟨by norm_num, by norm_num [tAB], ?_⟩
  norm_num [TextLayoutInfo.fillLine, fillWords, wordFits, wordWidth, wordHeight,
    splitWords, splitWordsGo, tAB, envTen]

/-- Claim C3 amended: the offset strictly increases and stays within the
text length whenever the first word-boundary segment from the offset passes
the glyph scan within the budget; when it does not, the primitive returns
length zero (see the counterexample) and progress is the caller's
responsibility. -/
theorem c3_fill_line_progress (env : FontEnv) (t : TextLayoutInfo) (width : ℚ)
    (offset : Nat) (e : Nat) (w : List Char) (rest : List (Nat × List Char))
    (hoff : offset < t.text.length)
    (hsplit : splitW (t.text.drop offset) 0 = (e, w) :: rest)
    (hfit : wordFits env width 0 w = true) :
    offset < offset + (t.fillLine env width offset).1 ∧
      offset + (t.fillLine env width offset).1 ≤ t.text.length := by
  have h1 := fillLine_first_fit env t width offset e w rest hsplit hfit
  have h2 := fillLine_le env t width offset
  have h3 : (t.text.drop offset).length = t.text.length - offset :=
    List.length_drop _ _
  have h4 : (e, w) ∈ splitW (t.text.drop offset) 0 := by
    rw [hsplit]
    exact List.mem_cons_self _ _
  have h5 := splitW_mem_bounds (t.text.drop offset) 0 _ h4
  constructor
  · omega
  · omega

/-- Witness for C3: text "ab" in the 1-unit font, budget 5, offset 0. -/
theorem c3_fill_line_progress_witness :
    0 < 0 + (tAB.fillLine envOne 5 0).1 ∧
      0 + (tAB.fillLine envOne 5 0).1 ≤ tAB.text.length :=
  c3_fill_line_progress envOne tAB 5 0 2 ['a', 'b'] []
    (by norm_num [tAB])
    (by rw [← splitWords_eq_splitW]; decide)
    (by norm_num [wordFits, envOne])


/-! ## Claim C4 -/

/-- Claim C4 as stated is false: on the one-byte text "a" whose glyph
advance (a billion units) exceeds even the forced width `99999999`, the
fill at the remaining width, the retry at the full width and the forced
fill all return length 0; the iteration leaves the byte offset at 0 (the
text length is 1, so the loop is not done) and the loop does not terminate
(fuel 5 shown; the state repeats, so no fuel suffices). -/
theorem c4_counterexample :
    (0 : Nat) < tA.text.length ∧
      (textStep envHuge 5 padZero 0 tA initInlineState 0).2 = 0 ∧
      textLoop envHuge 5 padZero 0 tA 5 initInlineState 0 = none := by
  have hwsp : 'a'.isWhitespace = false := by decide
  refine ⟨by norm_num [tA], ?_, ?_⟩
  · norm_num [textStep, TextLayoutInfo.fillLine, TextLayoutInfo.advancePastWhitespace,
      fillWords, wordFits, wordWidth, wordHeight, splitWords, splitWordsGo,
      overflowWidth, initInlineState, tA, envHuge, hwsp]
  · norm_num [textLoop, textStep, TextLayoutInfo.fillLine,
      TextLayoutInfo.advancePastWhitespace, fillWords, wordFits, wordWidth,
      wordHeight, splitWords, splitWordsGo, overflowWidth, initInlineState,
      tA, envHuge, padZero, hwsp]

/-- Claim C4 amended: when the fill at the remaining width and the retry at
the full width on a fresh line both return zero length, a fill at the
constant width `99999999` is forced; provided every glyph advance is
nonnegative and no word-boundary segment of the text is wider than that
constant, the byte offset strictly increases on every iteration of the
pending-text loop, and the loop terminates — fuel equal to the remaining
byte count always suffices. -/
theorem c4_text_loop_progress (env : FontEnv) (maxWidth : ℚ)
    (padding : LogicalSideOffsets) (index : Nat) (t : TextLayoutInfo)
    (hadv : ∀ c, 0 ≤ env.adv c)
    (hseg : ∀ off, off < t.text.length → ∀ p ∈ splitW (t.text.drop off) 0,
      wordWidth env p.2 ≤ overflowWidth) :
    (∀ (st : InlineState) (offset : Nat), offset < t.text.length →
      offset < (textStep env maxWidth padding index t st offset).2) ∧
    (∀ (fuel : Nat) (st : InlineState) (offset : Nat),
      t.text.length - offset ≤ fuel →
      (textLoop env maxWidth padding index t fuel st offset).isSome = true) := by
  constructor
  · intro st offset h
    exact (textStep_progress env maxWidth padding index t st offset hadv hseg h).1
  · intro fuel st offset h
    exact textLoop_term env maxWidth padding index t hadv hseg fuel st offset h

/-- Witness for C4: text "ab" in the 1-unit font, max width 100: the first
iteration advances the offset from 0 and fuel 2 completes the loop. -/
theorem c4_text_loop_progress_witness :
    0 < (textStep envOne 100 padZero 0 tAB initInlineState 0).2 ∧
      (textLoop envOne 100 padZero 0 tAB 2 initInlineState 0).isSome = true := by
  have h := c4_text_loop_progress envOne 100 padZero 0 tAB
    (fun c => by norm_num [envOne])
    (by
      intro off hoff p hp
      rw [← splitWords_eq_splitW] at hp
      have hb : off < 2 := by
        norm_num [tAB] at hoff
        exact hoff
      interval_cases off
      · have hsp : splitWords (tAB.text.drop 0) = [(2, ['a', 'b'])] := by decide
        rw [hsp] at hp
        simp at hp
        rw [hp]
        norm_num [wordWidth, envOne, overflowWidth]
      · have hsp : splitWords (tAB.text.drop 1) = [(1, ['b'])] := by decide
        rw [hsp] at hp
        simp at hp
        rw [hp]
        norm_num [wordWidth, envOne, overflowWidth])
  exact ⟨h.1 initInlineState 0 (by norm_num [tAB]),
    h.2 2 initInlineState 0 (by norm_num [tAB])⟩


/-! ## Claim C9 -/

/-- Claim C9: for every text, byte offset and width budget (glyph advances
nonnegative), `fill_line` returns a word-aligned cut — consumed length 0 or
the end offset of one of the word-boundary segments of the suffix; the
returned width never exceeds a nonnegative budget; the cut is furthest —
every segment end whose cumulative width fits in the budget is reached; if
the very first segment overflows the budget the result is the zero-length,
zero-width, zero-height triple; and the result decomposes as a consumed
prefix `P` of the segments, whose last end offset, accumulated width and
folded line height are exactly what is returned. -/
theorem c9_fill_line_spec (env : FontEnv) (t : TextLayoutInfo) (width : ℚ)
    (offset : Nat) (hadv : ∀ c, 0 ≤ env.adv c) :
    ((t.fillLine env width offset).1 = 0 ∨
      ∃ w, ((t.fillLine env width offset).1, w) ∈ splitW (t.text.drop offset) 0) ∧
    (0 ≤ width → (t.fillLine env width offset).2.1 ≤ width) ∧
    (∀ (k : Nat) (hk : k < (splitW (t.text.drop offset) 0).length),
      (((splitW (t.text.drop offset) 0).take (k + 1)).map
          fun q => wordWidth env q.2).sum ≤ width →
      ((splitW (t.text.drop offset) 0).get ⟨k, hk⟩).1 ≤
        (t.fillLine env width offset).1) ∧
    (∀ e w rest, splitW (t.text.drop offset) 0 = (e, w) :: rest →
      wordFits env width 0 w = false →
      t.fillLine env width offset = (0, 0, 0)) ∧
    (∃ P Q, splitW (t.text.drop offset) 0 = P ++ Q ∧
      (t.fillLine env width offset).1 = (P.map Prod.fst).getLastD 0 ∧
      (t.fillLine env width offset).2.1 =
        (P.map fun q => wordWidth env q.2).sum ∧
      (t.fillLine env width offset).2.2 =
        P.foldl (fun h q => max h (wordHeight env q.2)) 0) := by
  refine ⟨?_, ?_, ?_, ?_, ?_⟩
  · rw [TextLayoutInfo.fillLine, splitWords_eq_splitW]
    exact fillWords_fst_mem env width _ 0 0 0
  · intro hw
    rw [TextLayoutInfo.fillLine, splitWords_eq_splitW]
    exact fillWords_x_le env width _ 0 0 0 hw
  · intro k hk hsum
    rw [TextLayoutInfo.fillLine, splitWords_eq_splitW]
    refine fillWords_take_le env width hadv _ 0 0 0 k hk
      (splitW_sorted (t.text.drop offset) 0) ?_
    rw [zero_add]
    exact hsum
  · intro e w rest hsplit hfail
    rw [TextLayoutInfo.fillLine, splitWords_eq_splitW, hsplit, fillWords]
    rw [if_neg (by rw [hfail]; exact Bool.false_ne_true)]
  · obtain ⟨P, Q, hsplit, hval, hfailQ⟩ :=
      fillWords_shape env width (splitW (t.text.drop offset) 0) 0 0 0
    refine ⟨P, Q, hsplit, ?_, ?_, ?_⟩
    · rw [TextLayoutInfo.fillLine, splitWords_eq_splitW, hval]
    · rw [TextLayoutInfo.fillLine, splitWords_eq_splitW, hval]
      exact zero_add _
    · rw [TextLayoutInfo.fillLine, splitWords_eq_splitW, hval]

/-- Witness for C9: text "ab" in the 1-unit font, budget 25, offset 0. -/
theorem c9_fill_line_spec_witness :
    (((tAB.fillLine envOne 25 0).1 = 0 ∨
      ∃ w, ((tAB.fillLine envOne 25 0).1, w) ∈ splitW (tAB.text.drop 0) 0) ∧
    (0 ≤ (25 : ℚ) → (tAB.fillLine envOne 25 0).2.1 ≤ 25) ∧
    (∀ (k : Nat) (hk : k < (splitW (tAB.text.drop 0) 0).length),
      (((splitW (tAB.text.drop 0) 0).take (k + 1)).map
          fun q => wordWidth envOne q.2).sum ≤ 25 →
      ((splitW (tAB.text.drop 0) 0).get ⟨k, hk⟩).1 ≤
        (tAB.fillLine envOne 25 0).1) ∧
    (∀ e w rest, splitW (tAB.text.drop 0) 0 = (e, w) :: rest →
      wordFits envOne 25 0 w = false →
      tAB.fillLine envOne 25 0 = (0, 0, 0)) ∧
    (∃ P Q, splitW (tAB.text.drop 0) 0 = P ++ Q ∧
      (tAB.fillLine envOne 25 0).1 = (P.map Prod.fst).getLastD 0 ∧
      (tAB.fillLine envOne 25 0).2.1 =
        (P.map fun q => wordWidth envOne q.2).sum ∧
      (tAB.fillLine envOne 25 0).2.2 =
        P.foldl (fun h q => max h (wordHeight envOne q.2)) 0)) :=
  c9_fill_line_spec envOne tAB 25 0 (fun c => by norm_num [envOne])


/-! ## Claim C5 -/

/-- Claim C5: placing a resolved box child in Inline flow.  If the box at
the current cursor would pass the max width, the line is committed — total
height advances by the line height, the widest line is updated, cursor and
line height reset — and the box is placed at the line start; otherwise it
is placed at the cursor.  Afterwards the line height is the max of the
(possibly reset) line height and the box height, and the cursor advances by
the box width.  In particular, with max width 100 and two boxes of width
60, box 1 lands at (0, 0) and box 2 at (0, h1) on the next line. -/
theorem c5_inline_box_placement :
    (∀ (maxWidth : ℚ) (padding : LogicalSideOffsets) (index : Nat)
        (child : LayoutTreeNode) (st : InlineState),
      (st.x + child.size.width > maxWidth →
        inlineBox maxWidth padding index child st =
          ⟨child.size.width, st.height + st.lineHeight, max 0 child.size.height,
            max st.longestLine st.x,
            st.childs ++ [⟨index,
              ⟨padding.left, padding.top + (st.height + st.lineHeight)⟩, child⟩]⟩) ∧
      (¬ st.x + child.size.width > maxWidth →
        inlineBox maxWidth padding index child st =
          ⟨st.x + child.size.width, st.height,
            max st.lineHeight child.size.height, st.longestLine,
            st.childs ++ [⟨index,
              ⟨padding.left + st.x, padding.top + st.height⟩, child⟩]⟩)) ∧
    (∀ (env : FontEnv) (fuel : Nat) (h1 h2 : ℚ), 0 ≤ h1 → 0 ≤ h2 →
      calcLayout env fuel
          ⟨inlineOptsZ, ⟨100, 200⟩,
            [.Resolved (boxN 60 h1), .Resolved (boxN 60 h2)]⟩ =
        some (.Resolved (LayoutTreeNode.mk ⟨60, h1 + h2⟩ none
          [⟨0, ⟨0, 0⟩, boxN 60 h1⟩, ⟨1, ⟨0, h1⟩, boxN 60 h2⟩]))) := by
  constructor
  · intro maxWidth padding index child st
    constructor
    · intro hc
      rw [inlineBox]
      dsimp only
      rw [if_pos hc]
      dsimp only
      simp
    · intro hc
      rw [inlineBox]
      dsimp only
      rw [if_neg hc]
  · intro env fuel h1 h2 hh1 hh2
    have hm1 : max (0 : ℚ) h1 = h1 := max_eq_right hh1
    have hm2 : max (0 : ℚ) h2 = h2 := max_eq_right hh2
    have hm3 : max (0 : ℚ) 60 = 60 := max_eq_right (by norm_num)
    have hm4 : max (60 : ℚ) 60 = 60 := max_self 60
    norm_num [calcLayout, flowResult, inlineChildren, inlineBox, initInlineState,
      outerSize, inlineOptsZ, defaultLayoutOptions, boxN, LayoutTreeNode.size,
      LogicalSideOffsets.horizontal, LogicalSideOffsets.vertical,
      hm1, hm2, hm3, hm4]

/-! ## Claim C6 -/

/-- Claim C6: in List flow over resolved children, child `k` is placed at
(padding.left, padding.top plus the heights of the children before it), the
content width is the fold of the children's widths under max, the content
height is the sum of their heights, and the node wraps that content size in
padding and overrides.  With zero padding and children 100 by 20 and 50 by
30 the parent content is (100, 50) and child 2 sits at (0, 20). -/
theorem c6_list_flow :
    (∀ (env : FontEnv) (fuel : Nat) (opts : LayoutOptions)
        (maxSize : LogicalSize) (nodes : List LayoutTreeNode),
      opts.layoutTy = .List →
      ∃ node, calcLayout env fuel ⟨opts, maxSize, nodes.map .Resolved⟩ =
          some (.Resolved node) ∧
        node.size = outerSize opts
          ⟨(nodes.map fun n => n.size.width).foldl max 0,
            (nodes.map fun n => n.size.height).sum⟩ ∧
        node.children.length = nodes.length ∧
        (∀ (k : Nat) (hk : k < nodes.length),
          node.children[k]? = some ⟨k,
            ⟨opts.padding.left,
              ((nodes.take k).map fun n => n.size.height).sum + opts.padding.top⟩,
            nodes.get ⟨k, hk⟩⟩)) ∧
    (∀ (env : FontEnv) (fuel : Nat),
      calcLayout env fuel ⟨defaultLayoutOptions, ⟨500, 500⟩,
          [.Resolved (boxN 100 20), .Resolved (boxN 50 30)]⟩ =
        some (.Resolved (LayoutTreeNode.mk ⟨100, 50⟩ none
          [⟨0, ⟨0, 0⟩, boxN 100 20⟩, ⟨1, ⟨0, 20⟩, boxN 50 30⟩]))) := by
  constructor
  · intro env fuel opts maxSize nodes hty
    have hrun := listChildren_resolved env fuel opts.padding nodes 0 [] 0 0
    have hflow := flowResult_list env fuel ⟨opts, maxSize, nodes.map .Resolved⟩ hty
    rw [calcLayout, hty, hflow, hrun]
    refine ⟨_, rfl, ?_, ?_, ?_⟩
    · rw [LayoutTreeNode.size]
      refine congrArg _ (congrArg₂ _ rfl ?_)
      rw [zero_add]
    · rw [LayoutTreeNode.children]
      simp [buildList_length]
    · intro k hk
      rw [LayoutTreeNode.children]
      have hlen : k < ([] ++ buildList opts.padding nodes 0 0).length := by
        simp [buildList_length]
        exact hk
      rw [List.getElem?_eq_getElem hlen]
      have hlen2 : k < (buildList opts.padding nodes 0 0).length := by
        rw [buildList_length]
        exact hk
      have hget := buildList_get opts.padding nodes 0 0 k hk
      show some ((buildList opts.padding nodes 0 0).get ⟨k, hlen2⟩) = _
      rw [hget]
      simp only [Nat.zero_add, zero_add]
  · intro env fuel
    have hm1 : max (0 : ℚ) 100 = 100 := max_eq_right (by norm_num)
    have hm2 : max (100 : ℚ) 50 = 100 := max_eq_left (by norm_num)
    norm_num [calcLayout, flowResult, listChildren, UnresolvedLayout.resolve,
      outerSize, defaultLayoutOptions, boxN, LayoutTreeNode.size,
      LogicalSideOffsets.horizontal, LogicalSideOffsets.vertical, hm1, hm2]


/-! ## Claim C7 -/

/-- Claim C7: the outer size of a combined node is the flow's content size
plus the node's own padding on each axis, except that an explicit width or
height overrides the corresponding axis outright; and whenever a combined
node has children, the first one sits at (padding.left, padding.top). -/
theorem c7_padding_and_overrides :
    (∀ (opts : LayoutOptions) (c : LogicalSize),
      (opts.width = none →
        (outerSize opts c).width = c.width + (opts.padding.left + opts.padding.right)) ∧
      (∀ w, opts.width = some w → (outerSize opts c).width = w) ∧
      (opts.height = none →
        (outerSize opts c).height = c.height + (opts.padding.top + opts.padding.bottom)) ∧
      (∀ h, opts.height = some h → (outerSize opts c).height = h)) ∧
    (∀ (env : FontEnv) (fuel : Nat) (input : LayoutInputs) (node : LayoutTreeNode),
      calcLayout env fuel input = some (.Resolved node) →
      (∃ childs minSize, flowResult env fuel input = some (childs, minSize) ∧
        node.size = outerSize input.opts minSize) ∧
      (∀ ch, node.children.head? = some ch →
        ch.position = ⟨input.opts.padding.left, input.opts.padding.top⟩)) := by
  constructor
  · intro opts c
    refine ⟨?_, ?_, ?_, ?_⟩
    · intro hw
      rw [outerSize]
      dsimp only
      rw [hw, LogicalSideOffsets.horizontal]
    · intro w hw
      rw [outerSize]
      dsimp only
      rw [hw]
    · intro hh
      rw [outerSize]
      dsimp only
      rw [hh, LogicalSideOffsets.vertical]
    · intro h hh
      rw [outerSize]
      dsimp only
      rw [hh]
  · intro env fuel input node hcalc
    obtain ⟨childs, minSize, hflow, hnode⟩ := calcLayout_resolved env fuel input node hcalc
    constructor
    · exact ⟨childs, minSize, hflow, by rw [hnode, LayoutTreeNode.size]⟩
    · intro ch hch
      have hchilds : node.children = childs := by rw [hnode, LayoutTreeNode.children]
      rw [hchilds] at hch
      rcases hty : input.opts.layoutTy with _ | _ | str
      · rw [flowResult_list env fuel input hty] at hflow
        cases hlist : listChildren env fuel input.opts.padding input.children 0 ([], 0, 0) with
        | none => rw [hlist] at hflow; cases hflow
        | some acc =>
          rw [hlist] at hflow
          injection hflow with hpair
          dsimp only at hpair
          injection hpair with hcEq hmEq
          have hinv := listChildren_originInv env fuel input.opts.padding
            input.children 0 ([], 0, 0) acc hlist
            ⟨fun _ => rfl, fun c hc => by cases hc⟩
          rw [← hcEq] at hch
          exact hinv.2 ch hch
      · rw [flowResult_inline env fuel input hty] at hflow
        cases hrun : inlineChildren env fuel input.maxSize.width input.opts.padding
            input.children 0 initInlineState with
        | none => rw [hrun] at hflow; cases hflow
        | some st =>
          rw [hrun] at hflow
          injection hflow with hpair
          dsimp only at hpair
          injection hpair with hcEq hmEq
          have hinv := inlineChildren_originInv env fuel input.maxSize.width
            input.opts.padding input.children 0 initInlineState st hrun
            (initInlineState_originInv input.opts.padding)
          rw [← hcEq] at hch
          exact hinv.2 ch hch
      · rw [flowResult, hty] at hflow
        cases hflow

/-! ## Claim C8 -/

/-- Claim C8: the content size of an Inline node is
(max(widest committed line, final cursor), committed height plus the
current line height) taken from the final fold state — the last line is
counted even when never committed.  A single 30 by 40 box on a never
committed line yields content (30, 40). -/
theorem c8_inline_content_size :
    (∀ (env : FontEnv) (fuel : Nat) (input : LayoutInputs) (node : LayoutTreeNode),
      input.opts.layoutTy = .Inline →
      calcLayout env fuel input = some (.Resolved node) →
      ∃ st, inlineChildren env fuel input.maxSize.width input.opts.padding
          input.children 0 initInlineState = some st ∧
        node.size = outerSize input.opts
          ⟨max st.longestLine st.x, st.height + st.lineHeight⟩ ∧
        node.children = st.childs) ∧
    (∀ (env : FontEnv) (fuel : Nat),
      calcLayout env fuel ⟨inlineOptsZ, ⟨100, 200⟩, [.Resolved (boxN 30 40)]⟩ =
        some (.Resolved (LayoutTreeNode.mk ⟨30, 40⟩ none
          [⟨0, ⟨0, 0⟩, boxN 30 40⟩]))) := by
  constructor
  · intro env fuel input node hty hcalc
    obtain ⟨childs, minSize, hflow, hnode⟩ := calcLayout_resolved env fuel input node hcalc
    rw [flowResult_inline env fuel input hty] at hflow
    cases hrun : inlineChildren env fuel input.maxSize.width input.opts.padding
        input.children 0 initInlineState with
    | none => rw [hrun] at hflow; cases hflow
    | some st =>
      rw [hrun] at hflow
      injection hflow with hpair
      dsimp only at hpair
      injection hpair with hc hm
      refine ⟨st, rfl, ?_, ?_⟩
      · rw [hnode, LayoutTreeNode.size, ← hm]
      · rw [hnode, LayoutTreeNode.children, ← hc]
  · intro env fuel
    have hm1 : max (0 : ℚ) 40 = 40 := max_eq_right (by norm_num)
    have hm2 : max (0 : ℚ) 30 = 30 := max_eq_right (by norm_num)
    norm_num [calcLayout, flowResult, inlineChildren, inlineBox, initInlineState,
      outerSize, inlineOptsZ, defaultLayoutOptions, boxN, LayoutTreeNode.size,
      LogicalSideOffsets.horizontal, LogicalSideOffsets.vertical, hm1, hm2]

/-! ## Claim C10 -/

/-- Every child list built by the root loop positions each child at the
origin. -/
theorem runChildren_positions (env : FontEnv) (fuel : Nat) (size : LogicalSize)
    (opts : LayoutOptions) :
    ∀ (doms : List DomNode) (index : Nat) (childs : List LayoutChild),
    runChildren env fuel size opts doms index = some childs →
    ∀ c ∈ childs, c.position = ⟨0, 0⟩ := by
  intro doms
  induction doms with
  | nil =>
    intro index childs hrun c hc
    rw [runChildren] at hrun
    injection hrun with h
    rw [← h] at hc
    cases hc
  | cons d ds ih =>
    intro index childs hrun c hc
    rw [runChildren] at hrun
    cases h1 : layoutChild env fuel d size opts with
    | none => rw [h1] at hrun; cases hrun
    | some u =>
      rw [h1] at hrun
      have hrun2 : ((u.resolve env fuel).bind fun n =>
          (runChildren env fuel size opts ds (index + 1)).bind fun rest =>
            some ((⟨index, ⟨0, 0⟩, n⟩ : LayoutChild) :: rest)) = some childs := hrun
      cases h2 : u.resolve env fuel with
      | none => rw [h2] at hrun2; cases hrun2
      | some n =>
        rw [h2] at hrun2
        cases h3 : runChildren env fuel size opts ds (index + 1) with
        | none => rw [h3] at hrun2; cases hrun2
        | some rest =>
          rw [h3] at hrun2
          injection hrun2 with h
          rw [← h] at hc
          rcases List.mem_cons.mp hc with hc | hc
          · rw [hc]
          · exact ih _ _ h3 c hc

/-- Claim C10: whatever the element tree, the node returned by a top-level
layout call carries no render text, is sized to the viewport, and positions
every direct child at (0, 0) — the root applies no flow algorithm, so the
positions depend neither on the root's flow mode nor on sibling sizes. -/
theorem c10_root_layout (env : FontEnv) (fuel : Nat) (dom : DomNode)
    (size : LogicalSize) (node : LayoutTreeNode)
    (hrun : runLayout env fuel dom size = some node) :
    node.renderText = none ∧ node.size = size ∧
      ∀ c ∈ node.children, c.position = ⟨0, 0⟩ := by
  rw [runLayout] at hrun
  cases h1 : runChildren env fuel size (dom.createLayoutOpts defaultLayoutOptions)
      dom.childNodes 0 with
  | none => rw [h1] at hrun; cases hrun
  | some childs =>
    rw [h1] at hrun
    injection hrun with h
    rw [← h]
    refine ⟨rfl, rfl, ?_⟩
    intro c hc
    exact runChildren_positions env fuel size _ dom.childNodes 0 childs h1 c hc

/-- The element tree used by the C10 witness: a root with one childless
element, both keeping their parent options unchanged. -/
def domW : DomNode := DomNode.mk (fun o => o) [DomNode.mk (fun o => o) []]

/-- The layout tree the C10 witness expects. -/
def nodeW : LayoutTreeNode :=
  LayoutTreeNode.mk ⟨640, 480⟩ none
    [⟨0, ⟨0, 0⟩, LayoutTreeNode.mk ⟨0, 0⟩ none []⟩]

/-- Witness for C10 at a concrete one-child element tree. -/
theorem c10_root_layout_witness :
    nodeW.renderText = none ∧ nodeW.size = ⟨640, 480⟩ ∧
      ∀ c ∈ nodeW.children, c.position = ⟨0, 0⟩ :=
  c10_root_layout envOne 1 domW ⟨640, 480⟩ nodeW (by
    norm_num [runLayout, runChildren, layoutChild, layoutChildList, calcMaxSize,
      calcLayout, flowResult, listChildren, outerSize, defaultLayoutOptions,
      DomNode.createLayoutOpts, DomNode.childNodes, UnresolvedLayout.resolve,
      LogicalSideOffsets.horizontal, LogicalSideOffsets.vertical, domW, nodeW])

end Moxie
